import Mathlib

/-!
Shallow embedding of the exclusion-list logic of `src/extension.ts`
(the `vs-git-away` extension).

JavaScript strings are modelled as `List Char`; the string methods the
source uses (`split('\n')`, `trim()`, `join('\n')`, `startsWith('#')`,
`includes`) are modelled by the functions below with the same semantics.
The content of the backing file `.git/info/exclude` is an `Option (List Char)`,
`none` meaning the file does not exist.  The VS Code workspace root is an
`Option (List Char)`; filesystem existence checks and the locale comparator
used by `sort` are abstract parameters.
-/

set_option maxHeartbeats 1000000

namespace GitAway

/-- File text / JS string contents, one character at a time. -/
abbrev Str := List Char

/-- JS `s.trim()`: remove whitespace characters from both ends. -/
def trimStr (s : Str) : Str :=
  ((s.dropWhile Char.isWhitespace).reverse.dropWhile Char.isWhitespace).reverse

/-- JS `content.split('\n')`: split on each newline character, keeping
empty segments; the result is never empty. -/
def splitNl : Str → List Str
  | [] => [[]]
  | c :: cs =>
    if c = '\n' then [] :: splitNl cs
    else
      match splitNl cs with
      | [] => [[c]]
      | l :: ls => (c :: l) :: ls

/-- JS `lines.join('\n')`. -/
def joinNl : List Str → Str
  | [] => []
  | [l] => l
  | l :: ls => l ++ '\n' :: joinNl ls

/-- JS `line.startsWith('#')`. -/
def startsWithHash : Str → Bool
  | '#' :: _ => true
  | _ => false

/-- The filter of `getExcludedFiles` (extension.ts line 186):
`line => line && !line.startsWith('#')` applied to already-trimmed lines. -/
def keepLine (line : Str) : Bool := !line.isEmpty && !startsWithHash line

/-- Content of `.git/info/exclude`; `none` when the file does not exist. -/
abbrev ExcludeFile := Option Str

/-- Embeds `getExcludedFiles` (extension.ts lines 166-193): empty when there
is no workspace or the backing file is absent, otherwise the trimmed lines
of the file with empty and `#`-comment lines filtered out, in file order. -/
def getExcludedFiles (workspaceRoot : Option Str) (file : ExcludeFile) : List Str :=
  match workspaceRoot with
  | none => []
  | some _ =>
    match file with
    | none => []
    | some excludeContent =>
      ((splitNl excludeContent).map trimStr).filter keepLine

/-- Outcome of `removeFileFromExclude`, distinguished in the source by the
message shown before returning. -/
inductive RemoveResult
  | NoWorkspace
  | FileMissing
  | NotFound
  | Removed
deriving DecidableEq

/-- Embeds `removeFileFromExclude` (extension.ts lines 202-244): returns the
file state after the call together with the outcome. -/
def removeFileFromExclude (workspaceRoot : Option Str) (file : ExcludeFile)
    (excludedPath : Str) : ExcludeFile × RemoveResult :=
  match workspaceRoot with
  | none => (file, .NoWorkspace)
  | some _ =>
    match file with
    | none => (none, .FileMissing)
    | some excludeContent =>
      let lines := splitNl excludeContent
      let filteredLines := lines.filter (fun line => trimStr line != excludedPath)
      if filteredLines.length = lines.length then
        (some excludeContent, .NotFound)
      else
        (some (joinNl filteredLines), .Removed)

/-- Outcome of `excludeFileFromGit`, distinguished in the source by the
message shown before returning. -/
inductive AddResult
  | NoWorkspace
  | AlreadyPresent
  | Added
deriving DecidableEq

/-- Embeds `excludeFileFromGit` (extension.ts lines 253-300) after path
normalization: `pathToAdd` is the already-normalized relative path
(`path.relative` with backslashes replaced).  Returns the file state after
the call together with the outcome.  A missing file reads as `''`
(lines 275-278); the duplicate check (line 284) is `lines.includes(pathToAdd)`
on the raw, untrimmed lines; the written content (line 290) is
`trim(old) + (trim(old) ? '\n' : '') + pathToAdd + '\n'`. -/
def excludeFileFromGit (workspaceRoot : Option Str) (file : ExcludeFile)
    (pathToAdd : Str) : ExcludeFile × AddResult :=
  match workspaceRoot with
  | none => (file, .NoWorkspace)
  | some _ =>
    let excludeContent := file.getD []
    let lines := splitNl excludeContent
    if lines.contains pathToAdd then
      (file, .AlreadyPresent)
    else
      let t := trimStr excludeContent
      (some (t ++ (if t.isEmpty then [] else ['\n']) ++ pathToAdd ++ ['\n']), .Added)

/-- The data of one tree item built by `getChildren` (extension.ts
lines 104-149): its label, icon name, and whether it carries the
`vscode.open` command (the file-open action). -/
structure DisplayNode where
  label : Str
  iconName : Str
  hasOpenCommand : Bool
deriving DecidableEq

/-- The single informational item returned when the excluded-file list is
empty (extension.ts lines 104-109); it carries no command. -/
def placeholderItem : DisplayNode :=
  { label := "除外されたファイルはありません".data
    iconName := "info".data
    hasOpenCommand := false }

/-- JS `path.join(workspaceRoot, excludedPath)` (extension.ts line 122). -/
def pathJoin (root p : Str) : Str := root ++ '/' :: p

/-- Embeds `GitAwayTreeDataProvider.getChildren` at the root (extension.ts
lines 97-158).  `fileExistsAt` models `fs.existsSync`; `le` models the
locale-aware comparator `a.label.localeCompare(b.label) <= 0` used by
`files.sort`. -/
def getChildren (workspaceRoot : Option Str) (file : ExcludeFile)
    (fileExistsAt : Str → Bool) (le : Str → Str → Bool) : List DisplayNode :=
  let excludedFiles := getExcludedFiles workspaceRoot file
  if excludedFiles.length = 0 then
    [placeholderItem]
  else
    match workspaceRoot with
    | none => []
    | some root =>
      let files := excludedFiles.map (fun excludedPath =>
        let fe := fileExistsAt (pathJoin root excludedPath)
        { label := excludedPath
          iconName := if fe then "file".data else "warning".data
          hasOpenCommand := fe : DisplayNode })
      files.mergeSort (fun a b => le a.label b.label)

/-- All characters of `w` are whitespace. -/
def allWs (w : Str) : Prop := ∀ c ∈ w, c.isWhitespace

/-- The trimmed raw lines of a content string:
`content.split('\n').map(line => line.trim())`. -/
def lineTrims (c : Str) : List Str := (splitNl c).map trimStr

/-- The parsed entry list of a content string: the trimmed lines with empty
and comment lines filtered out, exactly as `getExcludedFiles` computes it. -/
def entriesOf (c : Str) : List Str := (lineTrims c).filter keepLine

/-! ### Basic lemmas about the string-method models -/

theorem splitNl_nil : splitNl [] = [[]] := rfl

theorem splitNl_cons_nl (s : Str) : splitNl ('\n' :: s) = [] :: splitNl s := by
  simp [splitNl]

theorem splitNl_ne_nil (s : Str) : splitNl s ≠ [] := by
  induction s with
  | nil => simp [splitNl]
  | cons x s ih =>
    by_cases hx : x = '\n'
    · subst hx; simp [splitNl]
    · simp only [splitNl, if_neg hx]
      cases h : splitNl s <;> simp

theorem splitNl_cons_ne {x : Char} (s : Str) (hx : x ≠ '\n') :
    ∃ h t, splitNl s = h :: t ∧ splitNl (x :: s) = (x :: h) :: t := by
  cases hs : splitNl s with
  | nil => exact absurd hs (splitNl_ne_nil s)
  | cons h t =>
    refine ⟨h, t, rfl, ?_⟩
    simp only [splitNl, if_neg hx, hs]

theorem splitNl_append_nl (a b : Str) :
    splitNl (a ++ '\n' :: b) = splitNl a ++ splitNl b := by
  induction a with
  | nil => simp [splitNl_cons_nl, splitNl_nil]
  | cons x a ih =>
    by_cases hx : x = '\n'
    · subst hx
      rw [List.cons_append, splitNl_cons_nl, splitNl_cons_nl, ih, List.cons_append]
    · obtain ⟨h, t, hs, hc⟩ := splitNl_cons_ne (a ++ '\n' :: b) hx
      obtain ⟨h', t', hs', hc'⟩ := splitNl_cons_ne a hx
      have key : h :: t = (h' :: t') ++ splitNl b := by rw [← hs, ih, hs']
      rw [List.cons_append] at key
      injection key with k1 k2
      rw [List.cons_append, hc, hc', k1, k2]
      simp

theorem splitNl_no_nl (s : Str) : ∀ l ∈ splitNl s, '\n' ∉ l := by
  induction s with
  | nil => intro l hl; simp [splitNl] at hl; simp [hl]
  | cons x s ih =>
    by_cases hx : x = '\n'
    · subst hx
      rw [splitNl_cons_nl]
      intro l hl
      rcases List.mem_cons.mp hl with rfl | hl
      · simp
      · exact ih l hl
    · obtain ⟨h, t, hs, hc⟩ := splitNl_cons_ne s hx
      rw [hc]
      intro l hl
      rcases List.mem_cons.mp hl with rfl | hl
      · intro hmem
        rcases List.mem_cons.mp hmem with rfl | hmem
        · exact hx rfl
        · exact ih h (hs ▸ List.mem_cons_self h t) hmem
      · exact ih l (hs ▸ List.mem_cons_of_mem h hl)

theorem splitNl_of_no_nl {s : Str} (h : '\n' ∉ s) : splitNl s = [s] := by
  induction s with
  | nil => rfl
  | cons x s ih =>
    have hx : x ≠ '\n' := fun hx => h (hx ▸ List.mem_cons_self x s)
    obtain ⟨l, t, hs, hc⟩ := splitNl_cons_ne s hx
    have : splitNl s = [s] := ih (fun hm => h (List.mem_cons_of_mem x hm))
    rw [this] at hs
    obtain ⟨rfl, rfl⟩ := List.cons.injEq .. ▸ hs
    rw [hc]

theorem joinNl_cons (l : Str) {ls : List Str} (h : ls ≠ []) :
    joinNl (l :: ls) = l ++ '\n' :: joinNl ls := by
  cases ls with
  | nil => exact absurd rfl h
  | cons a as => rfl

theorem joinNl_splitNl (s : Str) : joinNl (splitNl s) = s := by
  induction s with
  | nil => rfl
  | cons x s ih =>
    by_cases hx : x = '\n'
    · subst hx
      rw [splitNl_cons_nl, joinNl_cons _ (splitNl_ne_nil s), ih]
      rfl
    · obtain ⟨h, t, hs, hc⟩ := splitNl_cons_ne s hx
      rw [hc]
      cases t with
      | nil =>
        rw [hs] at ih
        simp only [joinNl] at ih ⊢
        rw [ih]
      | cons b bs =>
        rw [joinNl_cons _ (by simp)]
        rw [hs, joinNl_cons _ (by simp)] at ih
        simpa using ih

theorem joinNl_append_single (a : List Str) (x : Str) (ha : a ≠ []) :
    joinNl (a ++ [x]) = joinNl a ++ '\n' :: x := by
  induction a with
  | nil => exact absurd rfl ha
  | cons l ls ih =>
    cases ls with
    | nil => rfl
    | cons b bs =>
      rw [List.cons_append, joinNl_cons _ (by simp), joinNl_cons _ (by simp),
        ih (by simp)]
      simp

theorem trimStr_nil : trimStr [] = [] := rfl

theorem trimStr_ws_cons {x : Char} (s : Str) (hx : x.isWhitespace) :
    trimStr (x :: s) = trimStr s := by
  simp [trimStr, List.dropWhile_cons_of_pos, hx]

theorem trimStr_append_ws {w : Str} (s : Str) (hw : allWs w) :
    trimStr (s ++ w) = trimStr s := by
  unfold trimStr
  rw [List.dropWhile_append]
  by_cases h : (s.dropWhile Char.isWhitespace).isEmpty
  · rw [if_pos h]
    have h1 : w.dropWhile Char.isWhitespace = [] := List.dropWhile_eq_nil_iff.mpr hw
    have h2 : s.dropWhile Char.isWhitespace = [] := by
      simpa [List.isEmpty_iff] using h
    rw [h1, h2]
  · rw [if_neg h, List.reverse_append,
      List.dropWhile_append_of_pos (fun a ha => hw a (List.mem_reverse.mp ha))]

theorem trimStr_eq_nil_of_allWs {s : Str} (hs : allWs s) : trimStr s = [] := by
  unfold trimStr
  rw [List.dropWhile_eq_nil_iff.mpr hs]
  rfl

theorem trimStr_decomp (s : Str) :
    ∃ w1 w2, allWs w1 ∧ allWs w2 ∧ s = w1 ++ trimStr s ++ w2 := by
  refine ⟨s.takeWhile Char.isWhitespace,
    ((s.dropWhile Char.isWhitespace).reverse.takeWhile Char.isWhitespace).reverse,
    fun c hc => List.mem_takeWhile_imp hc,
    fun c hc => List.mem_takeWhile_imp (List.mem_reverse.mp hc), ?_⟩
  conv_lhs => rw [← List.takeWhile_append_dropWhile Char.isWhitespace s]
  rw [List.append_assoc]
  congr 1
  unfold trimStr
  rw [← List.reverse_append, List.takeWhile_append_dropWhile, List.reverse_reverse]

/-! ### Structure of the trimmed line list under whole-content trimming -/

theorem getExcludedFiles_some (r c : Str) :
    getExcludedFiles (some r) (some c) = entriesOf c := rfl

theorem lineTrims_ws_prepend (u : Str) :
    ∀ (w : Str), allWs w →
      ∃ e : List Str, (∀ x ∈ e, x = []) ∧ lineTrims (w ++ u) = e ++ lineTrims u := by
  intro w
  induction w with
  | nil => exact fun _ => ⟨[], by simp, by simp⟩
  | cons x w ih =>
    intro hw
    have hx : x.isWhitespace := hw x (List.mem_cons_self x w)
    obtain ⟨e, he, hlt⟩ := ih (fun c hc => hw c (List.mem_cons_of_mem x hc))
    by_cases hnl : x = '\n'
    · subst hnl
      refine ⟨[] :: e, ?_, ?_⟩
      · intro y hy
        rcases List.mem_cons.mp hy with rfl | hy
        · rfl
        · exact he y hy
      · show lineTrims ('\n' :: (w ++ u)) = ([] :: e) ++ lineTrims u
        unfold lineTrims at hlt ⊢
        rw [splitNl_cons_nl, List.map_cons, trimStr_nil, hlt, List.cons_append]
    · obtain ⟨h, t, hs, hc⟩ := splitNl_cons_ne (w ++ u) hnl
      refine ⟨e, he, ?_⟩
      show lineTrims (x :: (w ++ u)) = e ++ lineTrims u
      unfold lineTrims at hlt ⊢
      rw [hc, List.map_cons, trimStr_ws_cons _ hx, ← List.map_cons, ← hs, hlt]

theorem splitNl_append_single {x : Char} (hx : x ≠ '\n') (u : Str) :
    ∃ i l, splitNl u = i ++ [l] ∧ splitNl (u ++ [x]) = i ++ [l ++ [x]] := by
  induction u with
  | nil => exact ⟨[], [], rfl, by simp [splitNl, hx]⟩
  | cons y u ih =>
    obtain ⟨i, l, hu, hux⟩ := ih
    by_cases hy : y = '\n'
    · subst hy
      refine ⟨[] :: i, l, ?_, ?_⟩
      · rw [splitNl_cons_nl, hu, List.cons_append]
      · show splitNl ('\n' :: (u ++ [x])) = ([] :: i) ++ [l ++ [x]]
        rw [splitNl_cons_nl, hux, List.cons_append]
    · obtain ⟨h, t, hs, hc⟩ := splitNl_cons_ne u hy
      obtain ⟨h', t', hs', hc'⟩ := splitNl_cons_ne (u ++ [x]) hy
      cases i with
      | nil =>
        rw [List.nil_append] at hu hux
        rw [hu] at hs
        rw [hux] at hs'
        injection hs with e1 e2
        injection hs' with e3 e4
        refine ⟨[], y :: l, ?_, ?_⟩
        · rw [hc, ← e1, ← e2]; rfl
        · show splitNl (y :: (u ++ [x])) = [] ++ [(y :: l) ++ [x]]
          rw [hc', ← e3, ← e4]; rfl
      | cons a i2 =>
        rw [List.cons_append] at hu hux
        rw [hu] at hs
        rw [hux] at hs'
        injection hs with e1 e2
        injection hs' with e3 e4
        refine ⟨(y :: a) :: i2, l, ?_, ?_⟩
        · rw [hc, ← e1, ← e2]; rfl
        · show splitNl (y :: (u ++ [x])) = ((y :: a) :: i2) ++ [l ++ [x]]
          rw [hc', ← e3, ← e4]; rfl

theorem splitNl_entry_line {p : Str} (hp : '\n' ∉ p) :
    splitNl (p ++ ['\n']) = [p, []] := by
  have h := splitNl_append_nl p []
  rw [splitNl_of_no_nl hp] at h
  simpa using h

theorem splitNl_append_nl_nil (u : Str) :
    splitNl (u ++ ['\n']) = splitNl u ++ [[]] := by
  have h := splitNl_append_nl u []
  simpa using h

theorem lineTrims_ws_append :
    ∀ (w : Str), allWs w → ∀ (u : Str),
      ∃ e : List Str, (∀ x ∈ e, x = []) ∧ lineTrims (u ++ w) = lineTrims u ++ e := by
  intro w
  induction w with
  | nil => exact fun _ u => ⟨[], by simp, by simp⟩
  | cons x w ih =>
    intro hw u
    have hx : x.isWhitespace := hw x (List.mem_cons_self x w)
    obtain ⟨e, he, hlt⟩ := ih (fun c hc => hw c (List.mem_cons_of_mem x hc)) (u ++ [x])
    rw [List.append_assoc] at hlt
    by_cases hnl : x = '\n'
    · subst hnl
      have h1 : lineTrims (u ++ ['\n']) = lineTrims u ++ [[]] := by
        unfold lineTrims
        rw [splitNl_append_nl_nil u]
        simp [trimStr_nil]
      refine ⟨[] :: e, ?_, ?_⟩
      · intro y hy
        rcases List.mem_cons.mp hy with rfl | hy
        · rfl
        · exact he y hy
      · rw [show ([] : Str) :: e = [[]] ++ e from rfl, ← List.append_assoc, ← h1]
        exact hlt
    · obtain ⟨i, l, hu, hux⟩ := splitNl_append_single hnl u
      have h1 : lineTrims (u ++ [x]) = lineTrims u := by
        unfold lineTrims
        rw [hu, hux, List.map_append, List.map_append]
        congr 1
        simp only [List.map_cons, List.map_nil]
        rw [trimStr_append_ws l (fun c hc => by
          rcases List.mem_singleton.mp hc with rfl
          exact hx)]
      refine ⟨e, he, ?_⟩
      rw [← h1]
      exact hlt

theorem lineTrims_trimStr (c : Str) :
    ∃ e1 e2 : List Str, (∀ x ∈ e1, x = []) ∧ (∀ x ∈ e2, x = []) ∧
      lineTrims c = e1 ++ (lineTrims (trimStr c) ++ e2) := by
  obtain ⟨w1, w2, hw1, hw2, hdec⟩ := trimStr_decomp c
  obtain ⟨e2, he2, h2⟩ := lineTrims_ws_append w2 hw2 (trimStr c)
  obtain ⟨e1, he1, h1⟩ := lineTrims_ws_prepend (trimStr c ++ w2) w1 hw1
  refine ⟨e1, e2, he1, he2, ?_⟩
  conv_lhs => rw [hdec, List.append_assoc]
  rw [h1, h2]

theorem filter_keepLine_all_nil {e : List Str} (he : ∀ x ∈ e, x = []) :
    e.filter keepLine = [] :=
  List.filter_eq_nil_iff.mpr (fun x hx => by rw [he x hx]; simp [keepLine])

theorem entriesOf_trimStr (c : Str) : entriesOf (trimStr c) = entriesOf c := by
  obtain ⟨e1, e2, he1, he2, hK⟩ := lineTrims_trimStr c
  unfold entriesOf
  rw [hK, List.filter_append, List.filter_append,
    filter_keepLine_all_nil he1, filter_keepLine_all_nil he2]
  simp

theorem entriesOf_append_nl (t : Str) : entriesOf (t ++ ['\n']) = entriesOf t := by
  unfold entriesOf lineTrims
  rw [splitNl_append_nl_nil, List.map_append, List.filter_append]
  simp [trimStr_nil, keepLine]

theorem mem_lineTrims_of_mem_trim {c x : Str} (hx : x ∈ lineTrims (trimStr c)) :
    x ∈ lineTrims c := by
  obtain ⟨e1, e2, _, _, hK⟩ := lineTrims_trimStr c
  rw [hK]
  simp [hx]

/-! ### Branch characterizations of add and remove -/

theorem contains_eq_true_iff {l : List Str} {p : Str} : l.contains p = true ↔ p ∈ l := by
  simp [List.contains, List.elem_iff]

theorem excludeFileFromGit_mem (r : Str) (file : ExcludeFile) {p : Str}
    (h : p ∈ splitNl (file.getD [])) :
    excludeFileFromGit (some r) file p = (file, .AlreadyPresent) := by
  unfold excludeFileFromGit
  rw [if_pos (contains_eq_true_iff.mpr h)]

theorem excludeFileFromGit_not_mem (r : Str) (file : ExcludeFile) {p : Str}
    (h : p ∉ splitNl (file.getD [])) :
    excludeFileFromGit (some r) file p =
      (some (trimStr (file.getD []) ++
        (if (trimStr (file.getD [])).isEmpty then [] else ['\n']) ++ p ++ ['\n']),
       .Added) := by
  unfold excludeFileFromGit
  rw [if_neg (fun hc => h (contains_eq_true_iff.mp hc))]

theorem removeFileFromExclude_notFound (r : Str) {c e : Str}
    (h : ∀ l ∈ splitNl c, trimStr l ≠ e) :
    removeFileFromExclude (some r) (some c) e = (some c, .NotFound) := by
  have hf : (splitNl c).filter (fun line => trimStr line != e) = splitNl c :=
    List.filter_eq_self.mpr (fun l hl => by simpa using h l hl)
  unfold removeFileFromExclude
  simp only [hf, if_pos]

theorem removeFileFromExclude_found (r : Str) {c e : Str}
    (hex : ∃ l ∈ splitNl c, trimStr l = e) :
    removeFileFromExclude (some r) (some c) e =
      (some (joinNl ((splitNl c).filter (fun line => trimStr line != e))), .Removed) := by
  have hlen : ¬ ((splitNl c).filter (fun line => trimStr line != e)).length
      = (splitNl c).length := by
    intro hlen
    obtain ⟨l, hl, hle⟩ := hex
    have heq := List.Sublist.eq_of_length (List.filter_sublist _) hlen
    have hkeep := List.filter_eq_self.mp heq l hl
    rw [hle] at hkeep
    simp at hkeep
  show (if ((splitNl c).filter (fun line => trimStr line != e)).length = (splitNl c).length
      then (some c, RemoveResult.NotFound)
      else (some (joinNl ((splitNl c).filter (fun line => trimStr line != e))),
        RemoveResult.Removed))
    = (some (joinNl ((splitNl c).filter (fun line => trimStr line != e))),
        RemoveResult.Removed)
  rw [if_neg hlen]

/-! ### Consequences for contents written by a successful add -/

theorem trim_lines_ne {c p : Str} (h : ∀ l ∈ splitNl c, trimStr l ≠ p) :
    ∀ l ∈ splitNl (trimStr c), trimStr l ≠ p := by
  intro l hl hlp
  have hmem : trimStr l ∈ lineTrims c :=
    mem_lineTrims_of_mem_trim (List.mem_map_of_mem trimStr hl)
  obtain ⟨l', hl', hl'e⟩ := List.mem_map.mp hmem
  exact h l' hl' (hl'e.trans hlp)

theorem filter_remove_entry {p : Str} (htrim : trimStr p = p) (hne : p ≠ []) :
    ([p, ([] : Str)]).filter (fun line => trimStr line != p) = [[]] := by
  have hfp : (trimStr p != p) = false := by simp [htrim]
  have hfe : (trimStr ([] : Str) != p) = true := by
    rw [trimStr_nil]
    simpa using hne.symm
  simp [List.filter_cons, hfp, hfe]

theorem remove_added_entry {p : Str} (r t : Str) (htrim : trimStr p = p) (hne : p ≠ [])
    (hnl : '\n' ∉ p) (hlines : ∀ l ∈ splitNl t, trimStr l ≠ p) :
    removeFileFromExclude (some r) (some (t ++ '\n' :: (p ++ ['\n']))) p
      = (some (t ++ ['\n']), RemoveResult.Removed) := by
  have hsp : splitNl (t ++ '\n' :: (p ++ ['\n'])) = splitNl t ++ [p, []] := by
    rw [splitNl_append_nl, splitNl_entry_line hnl]
  have hex : ∃ l ∈ splitNl (t ++ '\n' :: (p ++ ['\n'])), trimStr l = p := by
    rw [hsp]
    exact ⟨p, by simp, htrim⟩
  rw [removeFileFromExclude_found r hex]
  have hfilter : (splitNl (t ++ '\n' :: (p ++ ['\n']))).filter
      (fun line => trimStr line != p) = splitNl t ++ [[]] := by
    rw [hsp, List.filter_append, filter_remove_entry htrim hne,
      List.filter_eq_self.mpr (fun l hl => by simpa using hlines l hl)]
  rw [hfilter, joinNl_append_single _ _ (splitNl_ne_nil t), joinNl_splitNl]

theorem remove_added_entry_nil {p : Str} (r : Str) (htrim : trimStr p = p) (hne : p ≠ [])
    (hnl : '\n' ∉ p) :
    removeFileFromExclude (some r) (some (p ++ ['\n'])) p
      = (some [], RemoveResult.Removed) := by
  have hsp := splitNl_entry_line hnl
  have hex : ∃ l ∈ splitNl (p ++ ['\n']), trimStr l = p := by
    rw [hsp]
    exact ⟨p, by simp, htrim⟩
  rw [removeFileFromExclude_found r hex]
  rw [show (splitNl (p ++ ['\n'])).filter (fun line => trimStr line != p) = [[]] by
    rw [hsp, filter_remove_entry htrim hne]]
  rfl

theorem mem_splitNl_newContent (c : Str) {p : Str} (hnl : '\n' ∉ p) :
    p ∈ splitNl (trimStr c ++ (if (trimStr c).isEmpty then [] else ['\n']) ++ p ++ ['\n']) := by
  by_cases ht : (trimStr c).isEmpty
  · have htc : trimStr c = [] := List.isEmpty_iff.mp ht
    rw [show trimStr c ++ (if (trimStr c).isEmpty then ([] : Str) else ['\n']) ++ p ++ ['\n']
        = p ++ ['\n'] by rw [htc]; simp]
    rw [splitNl_entry_line hnl]
    simp
  · rw [show trimStr c ++ (if (trimStr c).isEmpty then ([] : Str) else ['\n']) ++ p ++ ['\n']
        = trimStr c ++ '\n' :: (p ++ ['\n']) by rw [if_neg ht]; simp]
    rw [splitNl_append_nl, splitNl_entry_line hnl]
    simp

theorem entriesOf_newContent (c : Str) {p : Str} (htrim : trimStr p = p)
    (hnl : '\n' ∉ p) (hkeep : keepLine p = true) :
    entriesOf (trimStr c ++ (if (trimStr c).isEmpty then [] else ['\n']) ++ p ++ ['\n'])
      = entriesOf c ++ [p] := by
  have hfpe : ([p, ([] : Str)]).filter keepLine = [p] := by
    have h0 : keepLine ([] : Str) = false := rfl
    rw [List.filter_cons, List.filter_cons]
    simp [hkeep, h0]
  by_cases ht : (trimStr c).isEmpty
  · have htc : trimStr c = [] := List.isEmpty_iff.mp ht
    rw [show trimStr c ++ (if (trimStr c).isEmpty then ([] : Str) else ['\n']) ++ p ++ ['\n']
        = p ++ ['\n'] by rw [htc]; simp]
    rw [show entriesOf c = [] by rw [← entriesOf_trimStr c, htc]; rfl]
    unfold entriesOf lineTrims
    rw [splitNl_entry_line hnl]
    simp only [List.map_cons, List.map_nil, htrim, trimStr_nil]
    rw [hfpe]
    rfl
  · rw [show trimStr c ++ (if (trimStr c).isEmpty then ([] : Str) else ['\n']) ++ p ++ ['\n']
        = trimStr c ++ '\n' :: (p ++ ['\n']) by rw [if_neg ht]; simp]
    rw [← entriesOf_trimStr c]
    unfold entriesOf lineTrims
    rw [splitNl_append_nl, splitNl_entry_line hnl, List.map_append, List.filter_append]
    simp only [List.map_cons, List.map_nil, htrim, trimStr_nil]
    rw [hfpe]

/-! ### Claim theorems -/

/-- Claim C7: when the backing exclusion-list file does not exist, remove
returns the FileMissing failure outcome and the file state is unchanged
(the file is not created). -/
theorem C7_remove_missing_file (r e : Str) :
    removeFileFromExclude (some r) none e = (none, RemoveResult.FileMissing) := rfl

/-- Claim C3: load returns the empty sequence when the backing file does not
exist; otherwise its result is a sublist (hence in file order) of the trimmed
lines of the file, keeping a line with full multiplicity (no deduplication)
exactly when it is non-empty and does not start with a hash, and dropping it
entirely otherwise. -/
theorem C3_load_spec (r : Str) :
    getExcludedFiles (some r) none = [] ∧
    ∀ c : Str,
      List.Sublist (getExcludedFiles (some r) (some c)) ((splitNl c).map trimStr) ∧
      ∀ l : Str,
        ((l ≠ [] ∧ ¬ startsWithHash l = true) →
          (getExcludedFiles (some r) (some c)).count l
            = (((splitNl c).map trimStr).count l)) ∧
        ((l = [] ∨ startsWithHash l = true) →
          (getExcludedFiles (some r) (some c)).count l = 0) := by
  refine ⟨rfl, fun c => ⟨List.filter_sublist _, fun l => ⟨?_, ?_⟩⟩⟩
  · rintro ⟨h1, h2⟩
    show (entriesOf c).count l = ((lineTrims c).count l)
    unfold entriesOf
    exact List.count_filter (by simp [keepLine, h1, h2, List.isEmpty_iff])
  · intro h
    refine List.count_eq_zero.mpr (fun hmem => ?_)
    have hk := (List.mem_filter.mp hmem).2
    rcases h with h | h
    · rw [h] at hk
      simp [keepLine] at hk
    · simp [keepLine, h] at hk

/-- Witness for C3 at a concrete file containing a duplicate entry, a
comment, a blank line and an indented entry. -/
theorem C3_witness :
    (getExcludedFiles (some "/ws".data) (some "a.txt\na.txt\n# c\n\n b.txt".data)).count
        "a.txt".data
      = (((splitNl "a.txt\na.txt\n# c\n\n b.txt".data).map trimStr).count "a.txt".data) :=
  (((C3_load_spec "/ws".data).2 "a.txt\na.txt\n# c\n\n b.txt".data).2 "a.txt".data).1
    (by decide)

/-- Claim C8 is false on the code: with no workspace root the empty loaded
list makes `getChildren` return the single placeholder node, not zero nodes
(the workspace check at extension.ts lines 112-115 runs only after the
empty-list branch has already returned). -/
theorem C8_counterexample :
    getChildren none none (fun _ => false) (fun _ _ => true) = [placeholderItem] ∧
    getChildren none none (fun _ => false) (fun _ _ => true) ≠ [] := by
  refine ⟨rfl, fun h => ?_⟩
  rw [show getChildren none none (fun _ => false) (fun _ _ => true)
      = [placeholderItem] from rfl] at h
  exact List.noConfusion h

/-- Claim C8 (amended): when no workspace root is available the loaded list
is empty, so the display-node query returns exactly one placeholder node,
which carries no file-open action; it never returns zero nodes in this
situation. -/
theorem C8_no_workspace (file : ExcludeFile) (fx : Str → Bool) (le : Str → Str → Bool) :
    getChildren none file fx le = [placeholderItem] ∧
    placeholderItem.hasOpenCommand = false :=
  ⟨rfl, rfl⟩

/-- Claim C1 is false on the code: the add-time duplicate check
(`lines.includes(pathToAdd)`, extension.ts line 284) compares the entry
against the raw, untrimmed lines, so adding `a.txt` to a file containing
` a.txt` (leading space) writes a new line and returns Added, not
AlreadyPresent. -/
theorem C1_counterexample :
    excludeFileFromGit (some "/ws".data) (some " a.txt\n".data) "a.txt".data
      = (some "a.txt\na.txt\n".data, AddResult.Added) := by decide

/-- Claim C1 (amended): the add-time duplicate check compares the normalized
entry against each raw line by exact, untrimmed equality: add returns
AlreadyPresent without writing exactly when the entry equals some raw line,
and otherwise returns Added, even if some line trims to the entry. -/
theorem C1_raw_dedup (r : Str) (file : ExcludeFile) (p : Str) :
    (excludeFileFromGit (some r) file p = (file, AddResult.AlreadyPresent)
      ↔ p ∈ splitNl (file.getD [])) ∧
    (p ∉ splitNl (file.getD []) →
      (excludeFileFromGit (some r) file p).2 = AddResult.Added) := by
  constructor
  · constructor
    · intro h
      by_contra hmem
      rw [excludeFileFromGit_not_mem r file hmem] at h
      have := congrArg Prod.snd h
      simp at this
    · exact excludeFileFromGit_mem r file
  · intro h
    rw [excludeFileFromGit_not_mem r file h]

/-- Witness for C1 (amended): a raw line equal to the entry triggers
AlreadyPresent with the file unchanged. -/
theorem C1_witness :
    excludeFileFromGit (some "/ws".data) (some "a.txt\n".data) "a.txt".data
      = (some "a.txt\n".data, AddResult.AlreadyPresent) :=
  (C1_raw_dedup "/ws".data (some "a.txt\n".data) "a.txt".data).1.mpr (by decide)

/-- Claim C4: for an existing file and a non-empty target entry, remove
deletes exactly the raw lines (comments and blanks included) whose trimmed
value equals the target, keeping every other line in its original relative
order, and when no line matches it returns NotFound without writing. -/
theorem C4_remove_spec (r c e : Str) (hne : e ≠ []) :
    ((∀ l ∈ splitNl c, trimStr l ≠ e) →
      removeFileFromExclude (some r) (some c) e = (some c, RemoveResult.NotFound)) ∧
    ((∃ l ∈ splitNl c, trimStr l = e) →
      removeFileFromExclude (some r) (some c) e =
        (some (joinNl ((splitNl c).filter (fun l => decide (trimStr l ≠ e)))),
         RemoveResult.Removed)) := by
  refine ⟨removeFileFromExclude_notFound r, fun hex => ?_⟩
  rw [removeFileFromExclude_found r hex]
  have hfe : (splitNl c).filter (fun line => trimStr line != e)
      = (splitNl c).filter (fun l => decide (trimStr l ≠ e)) := by
    apply List.filter_congr
    intro a _
    simp [bne, Bool.beq_eq_decide_eq]
  rw [hfe]

/-- Witness for C4 at the spec's three-entry example, removing the middle
entry. -/
theorem C4_witness :
    (∃ l ∈ splitNl "a.txt\nb.txt\nc.txt".data, trimStr l = "b.txt".data) ∧
    removeFileFromExclude (some "/ws".data) (some "a.txt\nb.txt\nc.txt".data) "b.txt".data
      = (some (joinNl ((splitNl "a.txt\nb.txt\nc.txt".data).filter
          (fun l => decide (trimStr l ≠ "b.txt".data)))), RemoveResult.Removed) :=
  ⟨by decide,
    (C4_remove_spec "/ws".data "a.txt\nb.txt\nc.txt".data "b.txt".data (by decide)).2
      (by decide)⟩

/-- Claim C5: when the entry is not already present among the raw lines, a
successful add writes replacement content that has the new entry as its last
line and ends with exactly one trailing newline, and returns Added. -/
theorem C5_add_appends (r : Str) (file : ExcludeFile) (p : Str)
    (hmem : p ∉ splitNl (file.getD [])) (hnl : '\n' ∉ p) (hne : p ≠ []) :
    ∃ nc : Str, excludeFileFromGit (some r) file p = (some nc, AddResult.Added) ∧
      (∃ ls : List Str, splitNl nc = ls ++ [p, []]) ∧
      List.IsSuffix (p ++ ['\n']) nc ∧ ¬ List.IsSuffix (['\n', '\n'] : Str) nc := by
  refine ⟨trimStr (file.getD []) ++
      (if (trimStr (file.getD [])).isEmpty then [] else ['\n']) ++ p ++ ['\n'],
    excludeFileFromGit_not_mem r file hmem, ?_, ?_, ?_⟩
  · by_cases ht : (trimStr (file.getD [])).isEmpty
    · refine ⟨[], ?_⟩
      rw [List.isEmpty_iff.mp ht]
      simpa using splitNl_entry_line hnl
    · refine ⟨splitNl (trimStr (file.getD [])), ?_⟩
      rw [show trimStr (file.getD []) ++
            (if (trimStr (file.getD [])).isEmpty then ([] : Str) else ['\n']) ++ p ++ ['\n']
          = trimStr (file.getD []) ++ '\n' :: (p ++ ['\n']) by rw [if_neg ht]; simp]
      rw [splitNl_append_nl, splitNl_entry_line hnl]
  · exact ⟨trimStr (file.getD []) ++
      (if (trimStr (file.getD [])).isEmpty then [] else ['\n']), by simp⟩
  · rintro ⟨q, hq⟩
    rcases List.eq_nil_or_concat p with rfl | ⟨p', a, hpa⟩
    · exact hne rfl
    · rw [List.concat_eq_append] at hpa
      have ha : a ≠ '\n' := fun hh =>
        hnl (hpa ▸ List.mem_append_right p' (hh ▸ List.mem_singleton_self a))
      have hq2 : q ++ ['\n', '\n'] =
          ((trimStr (file.getD []) ++
              (if (trimStr (file.getD [])).isEmpty then [] else ['\n'])) ++ p')
            ++ [a, '\n'] := by
        rw [hq, hpa]
        simp
      have h2 := (List.append_inj' hq2 rfl).2
      have : '\n' = a := by
        injection h2 with h3 _
      exact ha this.symm

/-- Witness for C5: adding a fresh entry to a one-entry file. -/
theorem C5_witness :
    ∃ nc : Str,
      excludeFileFromGit (some "/ws".data) (some "a.txt\n".data) "b.txt".data
        = (some nc, AddResult.Added) ∧
      (∃ ls : List Str, splitNl nc = ls ++ ["b.txt".data, []]) ∧
      List.IsSuffix ("b.txt".data ++ ['\n']) nc ∧
      ¬ List.IsSuffix (['\n', '\n'] : Str) nc :=
  C5_add_appends "/ws".data (some "a.txt\n".data) "b.txt".data
    (by decide) (by decide) (by decide)

/-- Claim C10: a successful add writes exactly
`trim(old) + '\n' + entry + '\n'` (or `entry + '\n'` when the trimmed old
content is empty); the old content splits as leading whitespace, then the
trimmed middle kept verbatim, then trailing whitespace, so each add silently
discards exactly the leading and trailing whitespace of the prior content. -/
theorem C10_add_rewrite (r : Str) (file : ExcludeFile) (p : Str)
    (h : p ∉ splitNl (file.getD [])) :
    excludeFileFromGit (some r) file p =
      (some (trimStr (file.getD []) ++
        (if (trimStr (file.getD [])).isEmpty then [] else ['\n']) ++ p ++ ['\n']),
       AddResult.Added) ∧
    ∃ w1 w2 : Str, allWs w1 ∧ allWs w2 ∧
      file.getD [] = w1 ++ trimStr (file.getD []) ++ w2 :=
  ⟨excludeFileFromGit_not_mem r file h, trimStr_decomp (file.getD [])⟩

/-- Witness for C10 on a file with leading blank space, an interior comment
and blank line, and trailing blank lines. -/
theorem C10_witness :
    excludeFileFromGit (some "/ws".data) (some "  \n# k\n\nx.txt\n\n".data) "b.txt".data =
      (some (trimStr ("  \n# k\n\nx.txt\n\n".data) ++
        (if (trimStr ("  \n# k\n\nx.txt\n\n".data)).isEmpty then [] else ['\n'])
        ++ "b.txt".data ++ ['\n']),
       AddResult.Added) ∧
    ∃ w1 w2 : Str, allWs w1 ∧ allWs w2 ∧
      "  \n# k\n\nx.txt\n\n".data
        = w1 ++ trimStr ("  \n# k\n\nx.txt\n\n".data) ++ w2 :=
  C10_add_rewrite "/ws".data (some "  \n# k\n\nx.txt\n\n".data) "b.txt".data (by decide)

/-- Claim C2 is false on the code: when the entry is already present,
add is a no-op (AlreadyPresent) but the following remove still deletes it,
so the entry set shrinks instead of being restored.  Here add(`a.txt`) then
remove(`a.txt`) on the one-entry file `a.txt` empties the list. -/
theorem C2_counterexample :
    getExcludedFiles (some "/ws".data)
        (removeFileFromExclude (some "/ws".data)
          (excludeFileFromGit (some "/ws".data) (some "a.txt".data) "a.txt".data).1
          "a.txt".data).1 = [] ∧
    getExcludedFiles (some "/ws".data) (some "a.txt".data) = ["a.txt".data] := by
  constructor
  · decide
  · decide

/-- Claim C2 (amended): if the entry is a trimmed, non-empty, newline-free
string and no raw line of the prior content trims to it (in particular it is
not already present), then add followed by remove of that entry restores the
loaded entry list exactly. -/
theorem C2_round_trip (r c p : Str) (htrim : trimStr p = p) (hne : p ≠ [])
    (hnl : '\n' ∉ p) (h : ∀ l ∈ splitNl c, trimStr l ≠ p) :
    getExcludedFiles (some r)
        (removeFileFromExclude (some r)
          (excludeFileFromGit (some r) (some c) p).1 p).1
      = getExcludedFiles (some r) (some c) := by
  have hmem : p ∉ splitNl (((some c : ExcludeFile)).getD []) := by
    simpa using fun hp => h p hp htrim
  rw [excludeFileFromGit_not_mem r (some c) hmem]
  simp only [Option.getD_some]
  by_cases ht : (trimStr c).isEmpty
  · have htc : trimStr c = [] := List.isEmpty_iff.mp ht
    rw [show trimStr c ++ (if (trimStr c).isEmpty then ([] : Str) else ['\n']) ++ p ++ ['\n']
        = p ++ ['\n'] by rw [htc]; simp]
    rw [remove_added_entry_nil r htrim hne hnl]
    rw [getExcludedFiles_some, getExcludedFiles_some, ← entriesOf_trimStr c, htc]
  · rw [show trimStr c ++ (if (trimStr c).isEmpty then ([] : Str) else ['\n']) ++ p ++ ['\n']
        = trimStr c ++ '\n' :: (p ++ ['\n']) by rw [if_neg ht]; simp]
    rw [remove_added_entry r (trimStr c) htrim hne hnl (trim_lines_ne h)]
    rw [getExcludedFiles_some, getExcludedFiles_some, entriesOf_append_nl,
      entriesOf_trimStr]

/-- Witness for C2 (amended): round trip of `a.txt` over a file holding a
comment and another entry. -/
theorem C2_witness :
    getExcludedFiles (some "/ws".data)
        (removeFileFromExclude (some "/ws".data)
          (excludeFileFromGit (some "/ws".data) (some "# note\nb.txt\n".data) "a.txt".data).1
          "a.txt".data).1
      = getExcludedFiles (some "/ws".data) (some "# note\nb.txt\n".data) :=
  C2_round_trip "/ws".data "# note\nb.txt\n".data "a.txt".data
    (by decide) (by decide) (by decide) (by decide)

/-- Claim C6 is false on the code: starting from a file that already lists
`a.txt` twice, calling add(`a.txt`) twice leaves two occurrences in the
loaded entry list, not exactly one. -/
theorem C6_counterexample :
    (getExcludedFiles (some "/ws".data)
        (excludeFileFromGit (some "/ws".data)
          (excludeFileFromGit (some "/ws".data) (some "a.txt\na.txt".data) "a.txt".data).1
          "a.txt".data).1).count "a.txt".data = 2 := by
  decide

/-- Claim C6 (amended): if the entry is a trimmed, non-empty, newline-free,
non-comment string and no raw line of the prior content trims to it, then
the first add returns Added, the second add returns AlreadyPresent without
modifying the file, and the loaded entry list holds exactly one occurrence
of the entry. -/
theorem C6_add_idempotent (r c p : Str) (htrim : trimStr p = p) (hne : p ≠ [])
    (hnl : '\n' ∉ p) (hhash : startsWithHash p = false)
    (h : ∀ l ∈ splitNl c, trimStr l ≠ p) :
    (excludeFileFromGit (some r) (some c) p).2 = AddResult.Added ∧
    excludeFileFromGit (some r) (excludeFileFromGit (some r) (some c) p).1 p
      = ((excludeFileFromGit (some r) (some c) p).1, AddResult.AlreadyPresent) ∧
    (getExcludedFiles (some r)
        (excludeFileFromGit (some r) (excludeFileFromGit (some r) (some c) p).1 p).1).count p
      = 1 := by
  have hkeep : keepLine p = true := by
    unfold keepLine
    rw [hhash]
    cases hp : p with
    | nil => exact absurd hp hne
    | cons a as => rfl
  have hmem : p ∉ splitNl (((some c : ExcludeFile)).getD []) := by
    simpa using fun hp => h p hp htrim
  rw [excludeFileFromGit_not_mem r (some c) hmem]
  simp only [Option.getD_some]
  have hsecond : excludeFileFromGit (some r)
      (some (trimStr c ++ (if (trimStr c).isEmpty then [] else ['\n']) ++ p ++ ['\n'])) p
      = (some (trimStr c ++ (if (trimStr c).isEmpty then [] else ['\n']) ++ p ++ ['\n']),
         AddResult.AlreadyPresent) :=
    excludeFileFromGit_mem r _ (by simpa using mem_splitNl_newContent c hnl)
  refine ⟨by trivial, hsecond, ?_⟩
  rw [hsecond]
  rw [getExcludedFiles_some, entriesOf_newContent c htrim hnl hkeep]
  have hnotin : p ∉ entriesOf c := by
    intro hp
    obtain ⟨l', hl', he⟩ := List.mem_map.mp (List.mem_of_mem_filter hp)
    exact h l' hl' he
  rw [List.count_append, List.count_eq_zero_of_not_mem hnotin]
  simp

/-- Witness for C6 (amended): adding `a.txt` twice starting from an empty
exclusion file. -/
theorem C6_witness :
    (excludeFileFromGit (some "/ws".data) (some [] : ExcludeFile) "a.txt".data).2
        = AddResult.Added ∧
    excludeFileFromGit (some "/ws".data)
        (excludeFileFromGit (some "/ws".data) (some [] : ExcludeFile) "a.txt".data).1
        "a.txt".data
      = ((excludeFileFromGit (some "/ws".data) (some [] : ExcludeFile) "a.txt".data).1,
         AddResult.AlreadyPresent) ∧
    (getExcludedFiles (some "/ws".data)
        (excludeFileFromGit (some "/ws".data)
          (excludeFileFromGit (some "/ws".data) (some [] : ExcludeFile) "a.txt".data).1
          "a.txt".data).1).count "a.txt".data = 1 :=
  C6_add_idempotent "/ws".data [] "a.txt".data
    (by decide) (by decide) (by decide) (by decide) (by decide)

/-- Claim C9: when the loaded entry list is empty the display-node query
returns exactly one placeholder node (never zero) carrying no file-open
action; when the list is non-empty the returned nodes are exactly the
entries (as a permutation of labels) sorted by the locale-aware comparator
`le`, modelled abstractly as any transitive and total boolean comparison. -/
theorem C9_display (ws : Option Str) (file : ExcludeFile) (fx : Str → Bool)
    (le : Str → Str → Bool)
    (htrans : ∀ a b c, le a b → le b c → le a c)
    (htotal : ∀ a b, le a b || le b a) :
    (getExcludedFiles ws file = [] →
      getChildren ws file fx le = [placeholderItem] ∧
        placeholderItem.hasOpenCommand = false) ∧
    (getExcludedFiles ws file ≠ [] →
      List.Perm ((getChildren ws file fx le).map DisplayNode.label)
        (getExcludedFiles ws file) ∧
      (getChildren ws file fx le).Pairwise (fun a b => le a.label b.label)) := by
  constructor
  · intro h
    refine ⟨?_, rfl⟩
    unfold getChildren
    rw [h]
    rfl
  · intro h
    cases ws with
    | none => exact absurd rfl h
    | some root =>
      have hlen : ¬ ((getExcludedFiles (some root) file).length = 0) := fun hl =>
        h (List.length_eq_zero.mp hl)
      have hred : getChildren (some root) file fx le
          = ((getExcludedFiles (some root) file).map (fun excludedPath =>
              let fe := fx (pathJoin root excludedPath)
              { label := excludedPath
                iconName := if fe then "file".data else "warning".data
                hasOpenCommand := fe : DisplayNode })).mergeSort
              (fun a b => le a.label b.label) := by
        show (if (getExcludedFiles (some root) file).length = 0 then [placeholderItem]
            else ((getExcludedFiles (some root) file).map (fun excludedPath =>
              let fe := fx (pathJoin root excludedPath)
              { label := excludedPath
                iconName := if fe then "file".data else "warning".data
                hasOpenCommand := fe : DisplayNode })).mergeSort
              (fun a b => le a.label b.label)) = _
        rw [if_neg hlen]
      rw [hred]
      constructor
      · have hperm := (List.mergeSort_perm ((getExcludedFiles (some root) file).map
          (fun excludedPath =>
            let fe := fx (pathJoin root excludedPath)
            { label := excludedPath
              iconName := if fe then "file".data else "warning".data
              hasOpenCommand := fe : DisplayNode }))
          (fun a b => le a.label b.label)).map DisplayNode.label
        simpa [List.map_map, Function.comp_def] using hperm
      · exact List.sorted_mergeSort
          (fun a b c => htrans a.label b.label c.label)
          (fun a b => htotal a.label b.label) _

/-- Witness for C9 at an empty list (absent file), with the trivially total
and transitive comparator. -/
theorem C9_witness :
    getChildren (some "/ws".data) none (fun _ => false) (fun _ _ => true)
        = [placeholderItem] ∧
    placeholderItem.hasOpenCommand = false :=
  (C9_display (some "/ws".data) none (fun _ => false) (fun _ _ => true)
    (fun _ _ _ _ _ => rfl) (fun _ _ => rfl)).1 rfl

end GitAway
